import Mathlib

/-!
Shallow embedding of `src/defenses.py` (adversarial-robustness defenses):
`free_adv_train`, `SmoothedModel` (`_sample_under_noise`, `certify`) and
`NeuralCleanse.find_candidate_backdoor`.

Tensors are embedded as (nested) lists of rationals.  The caller-supplied
collaborators (model, loss, optimizer, Adam, the Clopper-Pearson routine
`proportion_confint` from statsmodels, and `norm.ppf` from scipy) are
parameters of the embedded functions: they are external to the repository
and the claims quantify over them.  The deterministic tensor plumbing of
the source - clamping, slicing, sign steps, gradient accumulation into
`.grad` fields, vote counting, chunked sampling, the abstain logic, the
in-place-update/rebinding structure of the Neural Cleanse loop - is
embedded concretely, line by line.
-/

namespace Defenses

/-- `torch.clamp(x, lo, hi)`, which computes `min (max x lo) hi`. -/
def clamp (lo hi x : ℚ) : ℚ := min (max x lo) hi

/-- `torch.sign` / `Tensor.sign()` on a scalar entry. -/
def sgn (x : ℚ) : ℚ := if 0 < x then 1 else if x < 0 then -1 else 0

/-- The backward of `torch.clamp(·, 0, 1)` at an entry `t`: the incoming
gradient is passed through exactly when `0 ≤ t ≤ 1` and zeroed otherwise. -/
def ind01 (t : ℚ) : ℚ := if 0 ≤ t ∧ t ≤ 1 then 1 else 0

/-- A flattened single input (one row of a batch). -/
abbrev Vec := List ℚ

/-- A 2-dimensional tensor: a batch of rows, or a spatial H x W tensor. -/
abbrev Mat := List Vec

/-- Elementwise addition of 2-D tensors. -/
def add2 (a b : Mat) : Mat := List.zipWith (List.zipWith (· + ·)) a b

/-- Elementwise (Hadamard) product of 2-D tensors. -/
def mul2 (a b : Mat) : Mat := List.zipWith (List.zipWith (· * ·)) a b

/-- Elementwise clamp-backward indicator of a 2-D tensor. -/
def indMat (a : Mat) : Mat := a.map (List.map ind01)

/-- Elementwise `torch.clamp(a, lo, hi)` on a 2-D tensor. -/
def clampMat (lo hi : ℚ) (a : Mat) : Mat := a.map (List.map (clamp lo hi))

/-- A zero tensor of the same shape as `a` (a fresh `.grad` accumulator). -/
def zerosLike (a : Mat) : Mat := a.map (List.map (fun _ => 0))

/-- All entries of a 2-D tensor lie in `[-eps, eps]` (`src/defenses.py`
invariant on the perturbation buffer `delta`). -/
def withinEps (eps : ℚ) (d : Mat) : Prop := ∀ r ∈ d, ∀ v ∈ r, -eps ≤ v ∧ v ≤ eps

/-- `int(np.ceil(a / b))` for natural `a`, `b` (line 44 of the source). -/
def ceilDiv (a b : ℕ) : ℕ := (a + b - 1) / b

/-!
### free_adv_train (lines 9-79)

One inner repetition of the replay loop (lines 52-72).  `xs` is the current
batch `inputs` (each row one flattened input), `gAdv` is the gradient of the
loss with respect to `inputs_adv` at this step, supplied by the abstract
model/loss oracle.  The state threads `delta` and the `inputs.grad` field
`acc`, which PyTorch *accumulates* across backward calls (nothing zeroes
`inputs.grad`: `optimizer.zero_grad()` only covers the registered model
parameters).  The gradient reaching the leaf `inputs` is the `inputs_adv`
gradient masked by the backward of `torch.clamp(inputs + delta[:b], 0, 1)`.
Line 71 updates the slice `delta[:b]`; line 72 clamps all of `delta`.
-/
def faInnerStep (eps : ℚ) (xs gAdv : Mat) (st : Mat × Mat) : Mat × Mat :=
  let delta := st.1
  let acc := st.2
  let b := xs.length
  let pre := add2 xs (delta.take b)
  let acc2 := add2 acc (mul2 gAdv (indMat pre))
  let upd := List.zipWith (List.zipWith (fun d g => d + eps * sgn g)) (delta.take b) acc2
  (clampMat (-eps) eps (upd ++ delta.drop b), acc2)

/-- The `for _ in range(m)` replay loop for one batch (lines 52-72): `G t` is
the loss gradient with respect to `inputs_adv` at global optimizer step `t`,
`t0` the global step index at which this batch starts.  A fresh `inputs`
tensor means `inputs.grad` starts at zero for the batch. -/
def faBatch (eps : ℚ) (m : ℕ) (xs : Mat) (G : ℕ → Mat) (t0 : ℕ) (delta : Mat) : Mat :=
  ((List.range m).foldl (fun st j => faInnerStep eps xs (G (t0 + j)) st)
    (delta, zerosLike xs)).1

/-- The state of the replay loop after `j` inner repetitions of one batch. -/
def faBatchTraj (eps : ℚ) (xs : Mat) (G : ℕ → Mat) (t0 : ℕ) (delta0 : Mat) : ℕ → Mat × Mat
  | 0 => (delta0, zerosLike xs)
  | j + 1 => faInnerStep eps xs (G (t0 + j)) (faBatchTraj eps xs G t0 delta0 j)

/-- The gradient of the loss with respect to the leaf `inputs` contributed by
inner repetition `j`: the `inputs_adv` gradient masked by the clamp backward
at `inputs + delta[:b]`. -/
def inputGrad (eps : ℚ) (xs : Mat) (G : ℕ → Mat) (t0 : ℕ) (delta0 : Mat) (j : ℕ) : Mat :=
  mul2 (G (t0 + j))
    (indMat (add2 xs (((faBatchTraj eps xs G t0 delta0 j).1).take xs.length)))

/-- Follows the words of claim C5 (and section 4.1 of the spec): each inner
repetition is said to update `delta` by adding `eps * sign(g)` where `g` is
the gradient of the loss with respect to `inputs_adv` of that repetition
alone - no clamp-backward masking and no accumulation across repetitions -
before clamping `delta` to `[-eps, eps]`. -/
def faBatchClaimed (eps : ℚ) (m : ℕ) (xs : Mat) (G : ℕ → Mat) (t0 : ℕ) (delta : Mat) : Mat :=
  (List.range m).foldl (fun d j =>
    let upd := List.zipWith (List.zipWith (fun dv g => dv + eps * sgn g))
      (d.take xs.length) (G (t0 + j))
    clampMat (-eps) eps (upd ++ d.drop xs.length)) delta

/-- Observable training-loop state: the perturbation buffer, the number of
`optimizer.step()` calls made, and the number of `lr_scheduler.step()` calls
made. -/
structure FARun where
  delta : Mat
  opt : ℕ
  sched : ℕ

/-- The `for i, (inputs, targets) in enumerate(loader_tr)` loop of one epoch
(lines 49-76): process each batch with the replay loop, counting `m`
optimizer steps per batch, and step the scheduler when
`(i + 1) % scheduler_step_iters == 0` (lines 74-76), `i` being the batch
index within the epoch. -/
def faBatches (eps : ℚ) (m stepIters : ℕ) (G : ℕ → Mat) :
    List Mat → ℕ → FARun → FARun
  | [], _, r => r
  | xs :: rest, i, r =>
    let delta2 := faBatch eps m xs G r.opt r.delta
    faBatches eps m stepIters G rest (i + 1)
      ⟨delta2, r.opt + m, if (i + 1) % stepIters = 0 then r.sched + 1 else r.sched⟩

/-- One epoch of the training loop. -/
def faEpoch (eps : ℚ) (m stepIters : ℕ) (batches : List Mat) (G : ℕ → Mat)
    (r : FARun) : FARun :=
  faBatches eps m stepIters G batches 0 r

/-- The `for epoch in range(epochs)` loop. -/
def faLoop (eps : ℚ) (m stepIters : ℕ) (batches : List Mat) (G : ℕ → Mat) :
    ℕ → FARun → FARun
  | 0, r => r
  | e + 1, r => faEpoch eps m stepIters batches G (faLoop eps m stepIters batches G e r)

/-- `free_adv_train` (lines 9-79): `delta` is initialized to zeros of one
full batch shape (line 38), `scheduler_step_iters = int(np.ceil(len(data_tr)
/ batch_size))` (line 44), and the nested epoch/batch/replay loops run with
the model/loss abstracted into the per-step input-gradient oracle `G`. -/
def free_adv_train (eps : ℚ) (m epochs batchSize inputDim dsize : ℕ)
    (batches : List Mat) (G : ℕ → Mat) : FARun :=
  faLoop eps m (ceilDiv dsize batchSize) batches G epochs
    ⟨List.replicate batchSize (List.replicate inputDim 0), 0, 0⟩

/-!
### SmoothedModel (lines 82-156)
-/

/-- `Tensor.split(batch_size)` (line 110): split a list into consecutive
chunks of size `bs`, the last chunk possibly shorter.  For `bs = 0` torch
raises; we return `[]`. -/
def chunks (bs : ℕ) : List α → List (List α)
  | [] => []
  | x :: xs =>
    if h : bs = 0 then [] else
      (x :: xs).take bs :: chunks bs ((x :: xs).drop bs)
termination_by l => l.length
decreasing_by
  simp only [List.length_drop, List.length_cons]
  omega

/-- `counts[pred] += 1` (line 120). -/
def inc (cs : List ℕ) (p : ℕ) : List ℕ := cs.set p (cs.getD p 0 + 1)

/-- `SmoothedModel._sample_under_noise` (lines 95-122): classify `x`
perturbed by each of the `n` given noise draws, processed in chunks of
`batch_size`, and accumulate per-class vote counts, starting from
`np.zeros(num_classes)`.  The frozen model (inference with gradients
disabled, followed by the per-row argmax of line 116) is the abstract
classifier `classify`, returning a class index below `k` for each noisy
input. -/
def sample_under_noise (k : ℕ) (classify : Vec → Fin k) (x : Vec)
    (noises : List Vec) (bs : ℕ) : List ℕ :=
  (chunks bs noises).foldl
    (fun counts batch =>
      (batch.map (fun nz => classify (List.zipWith (· + ·) x nz))).foldl
        (fun cs p => inc cs p.val) counts)
    (List.replicate k 0)

/-- `np.argmax` (line 143): the first index attaining the maximum. -/
def argmaxIdx (l : List ℕ) : ℕ := l.indexOf (l.foldr max 0)

/-- `SmoothedModel.ABSTAIN = -1` (line 89). -/
def ABSTAIN : ℤ := -1

/-- The top class `c` of the first sampling round (lines 142-143). -/
def predictedClass (k : ℕ) (classify : Vec → Fin k) (x : Vec)
    (noise0 : List Vec) (bs : ℕ) : ℕ :=
  argmaxIdx (sample_under_noise k classify x noise0 bs)

/-- Line 147: `p_a, _ = proportion_confint(counts[c], n, alpha=2 * alpha,
method='beta')`.  The statsmodels Clopper-Pearson routine is the abstract
parameter `confintLow` (lower endpoint), invoked on the second-round count
of class `c`, the second-round sample size `n`, and total error `2 * alpha`. -/
def lowerConfBound (confintLow : ℕ → ℕ → ℚ → ℚ) (k : ℕ) (classify : Vec → Fin k)
    (x : Vec) (noise1 : List Vec) (bs c : ℕ) (alpha : ℚ) : ℚ :=
  confintLow ((sample_under_noise k classify x noise1 bs).getD c 0)
    noise1.length (2 * alpha)

/-- `SmoothedModel.certify` (lines 125-156): select `c` from the first round
(`noise0`, `n0` draws), compute `p_a` from an independent second round
(`noise1`, `n` draws), abstain with radius `0` when `p_a ≤ 0.5`, otherwise
return `(c, sigma * ppf p_a)` with `ppf` the abstract `norm.ppf`. -/
def certify (k : ℕ) (classify : Vec → Fin k) (x : Vec) (noise0 noise1 : List Vec)
    (bs : ℕ) (alpha sigma : ℚ) (confintLow : ℕ → ℕ → ℚ → ℚ) (ppf : ℚ → ℚ) : ℤ × ℚ :=
  let c := predictedClass k classify x noise0 bs
  let pa := lowerConfBound confintLow k classify x noise1 bs c alpha
  if pa ≤ 1 / 2 then (ABSTAIN, 0) else ((c : ℤ), sigma * ppf pa)

/-!
### NeuralCleanse (lines 159-230)
-/

/-- A pointwise update indexed by position (the shape-preserving form of an
elementwise tensor operation). -/
def mapWithIdx (f : ℕ → α → β) (l : List α) : List β :=
  List.zipWith f (List.range l.length) l

/-- The 2-D spatial mask (initialized `torch.rand((dim[2], dim[3]))`). -/
abbrev Mask := List (List ℚ)

/-- The trigger pattern, flattened (initialized `torch.rand(self.dim)`). -/
abbrev Trigger := List ℚ

/-- Line 221: `mask -= self.step_size * mask.grad.sign()`, with `g i j` the
gradient entry at spatial position `(i, j)`. -/
def maskUpdate (ss : ℚ) (m : Mask) (g : ℕ → ℕ → ℚ) : Mask :=
  mapWithIdx (fun i row => mapWithIdx (fun j v => v - ss * sgn (g i j)) row) m

/-- Line 222: `mask = torch.clamp(mask, 0, 1)`. -/
def clampMask (m : Mask) : Mask := m.map (List.map (clamp 0 1))

/-- Line 224: `trigger -= self.step_size * trigger.grad.sign()`. -/
def trigUpdate (ss : ℚ) (t : Trigger) (g : ℕ → ℚ) : Trigger :=
  mapWithIdx (fun i v => v - ss * sgn (g i)) t

/-- Line 225: `trigger = torch.clamp(trigger, 0, 1)`. -/
def clampTrig (t : Trigger) : Trigger := t.map (clamp 0 1)

/-- All entries of a vector lie in `[0, 1]`. -/
def within01 (l : List ℚ) : Prop := ∀ v ∈ l, 0 ≤ v ∧ v ≤ 1

/-- All entries of a 2-D tensor lie in `[0, 1]`. -/
def within01Mat (m : Mask) : Prop := ∀ r ∈ m, within01 r

/-- The tensors live in the loop: `mask`/`trigger` are the values the Python
variables currently name, while `maskOpt`/`trigOpt` are the values of the
two tensors originally registered with the Adam optimizer (line 198).  After
the first update the clamp on lines 222/225 rebinds the variables to fresh
tensors, so the two pairs come apart. -/
structure NCState where
  mask : Mask
  trigger : Trigger
  maskOpt : Mask
  trigOpt : Trigger

/-- One pass of the inner loop body (lines 200-225) at global step `t`.
`G t m tr` is the pair of loss gradients with respect to `mask` and
`trigger` at their current values (cross-entropy toward `c_t` plus the
`lambda_c` L1 term for the mask); `adamM`/`adamT` are the abstract Adam
updates applied by `optimizer.step()` to the registered tensors.

At `t = 0` the registered tensors and the variables are the same objects:
the Adam step and then the in-place sign step apply to them, the variables
are rebound to the clamped values, and the registered tensors keep the
unclamped in-place values.  At `t ≥ 1` the graph no longer contains the
registered tensors: `optimizer.zero_grad()` leaves them with zero gradient,
`optimizer.step()` moves only them (stale), and the variables evolve by the
manual sign step and clamp alone. -/
def ncStep (ss : ℚ) (G : ℕ → Mask → Trigger → (ℕ → ℕ → ℚ) × (ℕ → ℚ))
    (adamM : ℕ → Mask → (ℕ → ℕ → ℚ) → Mask)
    (adamT : ℕ → Trigger → (ℕ → ℚ) → Trigger) (t : ℕ) (s : NCState) : NCState :=
  let g := G t s.mask s.trigger
  if t = 0 then
    let m1 := maskUpdate ss (adamM 0 s.mask g.1) g.1
    let t1 := trigUpdate ss (adamT 0 s.trigger g.2) g.2
    ⟨clampMask m1, clampTrig t1, m1, t1⟩
  else
    ⟨clampMask (maskUpdate ss s.mask g.1), clampTrig (trigUpdate ss s.trigger g.2),
      adamM t s.maskOpt (fun _ _ => 0), adamT t s.trigOpt (fun _ => 0)⟩

/-- Follows the words of claim C9: the variant of the loop body in which the
Adam optimizer step is omitted on all iterations after the first. -/
def ncStepNoStaleAdam (ss : ℚ) (G : ℕ → Mask → Trigger → (ℕ → ℕ → ℚ) × (ℕ → ℚ))
    (adamM : ℕ → Mask → (ℕ → ℕ → ℚ) → Mask)
    (adamT : ℕ → Trigger → (ℕ → ℚ) → Trigger) (t : ℕ) (s : NCState) : NCState :=
  let g := G t s.mask s.trigger
  if t = 0 then
    let m1 := maskUpdate ss (adamM 0 s.mask g.1) g.1
    let t1 := trigUpdate ss (adamT 0 s.trigger g.2) g.2
    ⟨clampMask m1, clampTrig t1, m1, t1⟩
  else
    ⟨clampMask (maskUpdate ss s.mask g.1), clampTrig (trigUpdate ss s.trigger g.2),
      s.maskOpt, s.trigOpt⟩

/-- Run the first `T` steps of the inner loop body. -/
def ncRun (ss : ℚ) (G : ℕ → Mask → Trigger → (ℕ → ℕ → ℚ) × (ℕ → ℚ))
    (adamM : ℕ → Mask → (ℕ → ℕ → ℚ) → Mask)
    (adamT : ℕ → Trigger → (ℕ → ℚ) → Trigger) : ℕ → NCState → NCState
  | 0, s => s
  | t + 1, s => ncStep ss G adamM adamT t (ncRun ss G adamM adamT t s)

/-- Run the first `T` steps of the claim-C9 variant. -/
def ncRunNoStaleAdam (ss : ℚ) (G : ℕ → Mask → Trigger → (ℕ → ℕ → ℚ) × (ℕ → ℚ))
    (adamM : ℕ → Mask → (ℕ → ℕ → ℚ) → Mask)
    (adamT : ℕ → Trigger → (ℕ → ℚ) → Trigger) : ℕ → NCState → NCState
  | 0, s => s
  | t + 1, s => ncStepNoStaleAdam ss G adamM adamT t (ncRunNoStaleAdam ss G adamM adamT t s)

/-- `NeuralCleanse.find_candidate_backdoor` (lines 182-230): starting from
the random initial `m0` (2-D) and `t0`, run `niters * nbatches` inner-loop
passes (`for i in range(self.niters): for x, _ in data_loader:`, the batch
data folded into the step index of the oracles), then return
`mask.repeat(3, 1, 1)` and the trigger (lines 227-230). -/
def find_candidate_backdoor (ss : ℚ) (niters nbatches : ℕ)
    (G : ℕ → Mask → Trigger → (ℕ → ℕ → ℚ) × (ℕ → ℚ))
    (adamM : ℕ → Mask → (ℕ → ℕ → ℚ) → Mask)
    (adamT : ℕ → Trigger → (ℕ → ℚ) → Trigger)
    (m0 : Mask) (t0 : Trigger) : List Mask × Trigger :=
  let s := ncRun ss G adamM adamT (niters * nbatches) ⟨m0, t0, m0, t0⟩
  (List.replicate 3 s.mask, s.trigger)

/-- Variant of `find_candidate_backdoor` per claim C9 (Adam step omitted on
all iterations after the first). -/
def find_candidate_backdoor_no_stale_adam (ss : ℚ) (niters nbatches : ℕ)
    (G : ℕ → Mask → Trigger → (ℕ → ℕ → ℚ) × (ℕ → ℚ))
    (adamM : ℕ → Mask → (ℕ → ℕ → ℚ) → Mask)
    (adamT : ℕ → Trigger → (ℕ → ℚ) → Trigger)
    (m0 : Mask) (t0 : Trigger) : List Mask × Trigger :=
  let s := ncRunNoStaleAdam ss G adamM adamT (niters * nbatches) ⟨m0, t0, m0, t0⟩
  (List.replicate 3 s.mask, s.trigger)

/-- Line 206: `mask.repeat(x.shape[1], 1, 1)`, the broadcast of the 2-D mask
to the channel count of the current batch during optimization. -/
def expand_mask (c : ℕ) (m : Mask) : List Mask := List.replicate c m

/-- The 2-D mask has `h` rows of `w` entries each. -/
def maskIsShape (h w : ℕ) (m : Mask) : Prop := m.length = h ∧ ∀ r ∈ m, r.length = w

/-!
## Lemmas and claim theorems
-/

theorem clamp_mem (lo hi x : ℚ) (hlh : lo ≤ hi) : lo ≤ clamp lo hi x ∧ clamp lo hi x ≤ hi := by
  constructor
  · exact le_min (le_max_right x lo) hlh
  · exact min_le_right _ _

theorem withinEps_clampMat (eps : ℚ) (heps : 0 ≤ eps) (a : Mat) :
    withinEps eps (clampMat (-eps) eps a) := by
  intro r hr v hv
  rcases List.mem_map.mp hr with ⟨row, _, rfl⟩
  rcases List.mem_map.mp hv with ⟨u, _, rfl⟩
  exact clamp_mem (-eps) eps u (by linarith)

theorem faInnerStep_withinEps (eps : ℚ) (heps : 0 ≤ eps) (xs gAdv : Mat) (st : Mat × Mat) :
    withinEps eps (faInnerStep eps xs gAdv st).1 :=
  withinEps_clampMat eps heps _

theorem foldl_range_succ {β : Type} (f : β → ℕ → β) (b : β) (n : ℕ) :
    (List.range (n + 1)).foldl f b = f ((List.range n).foldl f b) n := by
  rw [List.range_succ, List.foldl_append]
  rfl

theorem faBatch_eq_traj (eps : ℚ) (xs : Mat) (G : ℕ → Mat) (t0 : ℕ) (d0 : Mat) :
    ∀ m : ℕ,
      (List.range m).foldl (fun st j => faInnerStep eps xs (G (t0 + j)) st)
        (d0, zerosLike xs) = faBatchTraj eps xs G t0 d0 m
  | 0 => rfl
  | m + 1 => by
    rw [foldl_range_succ, faBatch_eq_traj eps xs G t0 d0 m]
    rfl

theorem faBatch_withinEps (eps : ℚ) (heps : 0 ≤ eps) (m : ℕ) (xs : Mat) (G : ℕ → Mat)
    (t0 : ℕ) (delta : Mat) (hd : withinEps eps delta) :
    withinEps eps (faBatch eps m xs G t0 delta) := by
  cases m with
  | zero => exact hd
  | succ m =>
    unfold faBatch
    rw [foldl_range_succ]
    exact faInnerStep_withinEps eps heps _ _ _

theorem faBatches_withinEps (eps : ℚ) (heps : 0 ≤ eps) (m stepIters : ℕ) (G : ℕ → Mat) :
    ∀ (l : List Mat) (i : ℕ) (r : FARun), withinEps eps r.delta →
      withinEps eps (faBatches eps m stepIters G l i r).delta
  | [], _, _, hr => hr
  | xs :: rest, i, r, hr =>
    faBatches_withinEps eps heps m stepIters G rest (i + 1) _
      (faBatch_withinEps eps heps m xs G r.opt r.delta hr)

theorem faLoop_withinEps (eps : ℚ) (heps : 0 ≤ eps) (m stepIters : ℕ)
    (batches : List Mat) (G : ℕ → Mat) :
    ∀ (epochs : ℕ) (r : FARun), withinEps eps r.delta →
      withinEps eps (faLoop eps m stepIters batches G epochs r).delta
  | 0, _, hr => hr
  | e + 1, r, hr =>
    faBatches_withinEps eps heps m stepIters G batches 0 _
      (faLoop_withinEps eps heps m stepIters batches G e r hr)

/-- Claim C2: in `free_adv_train`, after every perturbation update (the
addition of `eps * sign(inputs.grad)` on the slice `delta[:batch]` followed
by the clamp of all of `delta` on line 72), every entry of `delta` lies in
`[-eps, eps]`; together with the zero initialization this bound holds at
every point where `delta` is next read.  (The clamp makes the bound hold
unconditionally for `eps ≥ 0`, whatever the gradients are.) -/
theorem C2_delta_within_eps (eps : ℚ) (heps : 0 ≤ eps) :
    (∀ (xs gAdv : Mat) (st : Mat × Mat), withinEps eps (faInnerStep eps xs gAdv st).1)
    ∧ ∀ (m epochs batchSize inputDim dsize : ℕ) (batches : List Mat) (G : ℕ → Mat),
        withinEps eps (free_adv_train eps m epochs batchSize inputDim dsize batches G).delta := by
  refine ⟨fun xs gAdv st => faInnerStep_withinEps eps heps xs gAdv st, ?_⟩
  intro m epochs batchSize inputDim dsize batches G
  apply faLoop_withinEps eps heps
  intro r hr v hv
  rw [List.eq_of_mem_replicate hr] at hv
  rw [List.eq_of_mem_replicate hv]
  constructor <;> linarith

theorem C2_witness :
    withinEps 1 (faInnerStep 1 [[(1 : ℚ)/2]] [[1]] ([[5]], [[0]])).1
    ∧ withinEps 1 (free_adv_train 1 2 1 1 1 2 [[[0]], [[0]]] (fun _ => [[0]])).delta :=
  ⟨(C2_delta_within_eps 1 (by norm_num)).1 _ _ _,
   (C2_delta_within_eps 1 (by norm_num)).2 2 1 1 1 2 _ _⟩

/-- Claim C4 is false as stated.  With `m = 2`, dataset size 2, batch size 1
(so `scheduler_step_iters = ceil(2/1) = 2` and two batches per epoch) and
one epoch, the run performs 4 optimizer steps.  A scheduler advancing once
per `scheduler_step_iters = 2` optimizer steps counted over the inner replay
loop would advance `4 / 2 = 2` times, but the code checks
`(i + 1) % scheduler_step_iters == 0` only once per outer batch (`i` the
batch index), so the scheduler advances exactly once. -/
theorem C4_counterexample :
    (free_adv_train 1 2 1 1 1 2 [[[0]], [[0]]] (fun _ => [[0]])).opt = 4
    ∧ ceilDiv 2 1 = 2
    ∧ (free_adv_train 1 2 1 1 1 2 [[[0]], [[0]]] (fun _ => [[0]])).sched = 1
    ∧ (free_adv_train 1 2 1 1 1 2 [[[0]], [[0]]] (fun _ => [[0]])).sched ≠ 4 / 2 := by
  decide

theorem faBatches_opt (eps : ℚ) (m stepIters : ℕ) (G : ℕ → Mat) :
    ∀ (l : List Mat) (i : ℕ) (r : FARun),
      (faBatches eps m stepIters G l i r).opt = r.opt + l.length * m
  | [], _, _ => by simp [faBatches]
  | xs :: rest, i, r => by
    rw [faBatches, faBatches_opt eps m stepIters G rest (i + 1) _]
    simp [List.length_cons]
    ring

theorem faBatches_sched (eps : ℚ) (m stepIters : ℕ) (G : ℕ → Mat) :
    ∀ (l : List Mat) (i : ℕ) (r : FARun),
      (faBatches eps m stepIters G l i r).sched
        = r.sched + (List.range l.length).countP (fun j => (i + j + 1) % stepIters == 0)
  | [], _, _ => by simp [faBatches]
  | xs :: rest, i, r => by
    rw [faBatches, faBatches_sched eps m stepIters G rest (i + 1) _]
    have hshift :
        (fun j => ((i + 1) + j + 1) % stepIters == 0)
          = (fun j => (i + (j + 1) + 1) % stepIters == 0) := by
      funext j
      have : (i + 1) + j + 1 = i + (j + 1) + 1 := by omega
      rw [this]
    simp only [List.length_cons, List.range_succ_eq_map, List.countP_cons,
      List.countP_map, Function.comp_def, hshift]
    by_cases hc : (i + 0 + 1) % stepIters = 0
    · simp [hc]
      omega
    · simp [hc]

theorem countP_range_self (s : ℕ) (hs : 0 < s) :
    (List.range s).countP (fun j => (0 + j + 1) % s == 0) = 1 := by
  obtain ⟨k, rfl⟩ : ∃ k, s = k + 1 := ⟨s - 1, by omega⟩
  rw [List.range_succ, List.countP_append]
  have h1 : (List.range k).countP (fun j => (0 + j + 1) % (k + 1) == 0) = 0 := by
    rw [List.countP_eq_zero]
    intro j hj
    have hjk : j < k := List.mem_range.mp hj
    have hmod : (0 + j + 1) % (k + 1) = j + 1 := by
      rw [Nat.mod_eq_of_lt (by omega)]
      omega
    simp only [hmod, beq_iff_eq]
    omega
  rw [h1]
  have h2 : (0 + k + 1) % (k + 1) = 0 := by
    have : 0 + k + 1 = k + 1 := by omega
    rw [this, Nat.mod_self]
  simp [List.countP, List.countP.go, h2]

theorem faLoop_opt_sched (eps : ℚ) (m stepIters : ℕ) (batches : List Mat) (G : ℕ → Mat)
    (hs : 0 < stepIters) (hlen : batches.length = stepIters) :
    ∀ (epochs : ℕ) (r : FARun),
      (faLoop eps m stepIters batches G epochs r).sched = r.sched + epochs
      ∧ (faLoop eps m stepIters batches G epochs r).opt = r.opt + epochs * (stepIters * m)
  | 0, r => by simp [faLoop]
  | e + 1, r => by
    have ih := faLoop_opt_sched eps m stepIters batches G hs hlen e r
    unfold faLoop faEpoch
    rw [faBatches_sched, faBatches_opt, ih.1, ih.2, hlen, countP_range_self stepIters hs]
    constructor <;> ring

/-- Claim C4, amended: the scheduler condition `(i + 1) % scheduler_step_iters
== 0` is evaluated once per *outer* batch (with `i` the within-epoch batch
index), not per inner-loop optimizer step.  Since the loader yields
`ceil(dataset_size / batch_size) = scheduler_step_iters` batches per epoch,
the scheduler advances exactly once per epoch, i.e. exactly once per
`scheduler_step_iters * m` optimizer steps: after `epochs` epochs it has
advanced `epochs` times while the optimizer has stepped
`epochs * scheduler_step_iters * m` times. -/
theorem C4_amended_scheduler (eps : ℚ) (m epochs batchSize inputDim dsize : ℕ)
    (batches : List Mat) (G : ℕ → Mat)
    (hs : 0 < ceilDiv dsize batchSize)
    (hlen : batches.length = ceilDiv dsize batchSize) :
    (free_adv_train eps m epochs batchSize inputDim dsize batches G).sched = epochs
    ∧ (free_adv_train eps m epochs batchSize inputDim dsize batches G).opt
        = epochs * (ceilDiv dsize batchSize * m) := by
  have h := faLoop_opt_sched eps m (ceilDiv dsize batchSize) batches G hs hlen epochs
    ⟨List.replicate batchSize (List.replicate inputDim 0), 0, 0⟩
  exact ⟨by simpa [free_adv_train] using h.1, by simpa [free_adv_train] using h.2⟩

theorem C4_witness :
    (free_adv_train 1 3 2 1 1 2 [[[0]], [[0]]] (fun _ => [[0]])).sched = 2
    ∧ (free_adv_train 1 3 2 1 1 2 [[[0]], [[0]]] (fun _ => [[0]])).opt = 12 :=
  C4_amended_scheduler 1 3 2 1 1 2 [[[0]], [[0]]] (fun _ => [[0]]) (by decide) (by decide)

/-- Claim C5 is false as stated.  Batch `inputs = [1/2]`, `eps = 1`,
`delta = [0]`, `m = 2`, with the loss gradient with respect to `inputs_adv`
equal to `[1]` at the first repetition and `[-1]` at the second.  Both the
code and the claim produce `delta = [1]` after the first repetition, so at
the second repetition the two runs see the same `inputs_adv` and the same
gradient `[-1]`.  The claim's update (`eps * sign` of the per-repetition
`inputs_adv` gradient) then yields `delta = [0]`, but the code adds
`eps * sign(inputs.grad)` where `inputs.grad` is the gradient with respect
to the pre-clamp leaf `inputs` accumulated across both backward calls: the
second contribution is zeroed by the clamp backward (since
`inputs + delta = 3/2 > 1`), `inputs.grad` stays `[1]`, and `delta` stays
`[1]`. -/
theorem C5_counterexample :
    faBatch 1 2 [[(1 : ℚ)/2]] (fun t => if t = 0 then [[1]] else [[-1]]) 0 [[0]] = [[1]]
    ∧ faBatchClaimed 1 2 [[(1 : ℚ)/2]] (fun t => if t = 0 then [[1]] else [[-1]]) 0 [[0]]
        = [[0]]
    ∧ ([[(1 : ℚ)]] : Mat) ≠ [[0]] := by
  norm_num [faBatch, faBatchClaimed, faInnerStep, List.range_succ, add2, mul2, indMat,
    clampMat, zerosLike, ind01, sgn, clamp, max_def, min_def]

/-- Claim C5, amended: each of the `m` inner repetitions forms
`inputs_adv = clamp(inputs + delta[:b], 0, 1)`, backpropagates the loss
(one abstract optimizer step on the model parameters per repetition), and
then updates `delta[:b]` by adding `eps * sign(inputs.grad)` before
clamping `delta` to `[-eps, eps]` - where `inputs.grad` is the gradient of
the loss with respect to the pre-clamp leaf `inputs`, accumulated over all
repetitions of the current batch so far: the sum over repetitions `i ≤ j`
of the `inputs_adv` gradient of repetition `i` masked by the indicator that
`inputs + delta` lies in `[0, 1]` (the backward of the clamp). -/
theorem C5_amended_inner_loop (eps : ℚ) (xs : Mat) (G : ℕ → Mat) (t0 : ℕ) (d0 : Mat) :
    (∀ m, faBatch eps m xs G t0 d0 = (faBatchTraj eps xs G t0 d0 m).1)
    ∧ (∀ j, (faBatchTraj eps xs G t0 d0 (j + 1)).2
        = (List.range (j + 1)).foldl
            (fun a i => add2 a (inputGrad eps xs G t0 d0 i)) (zerosLike xs))
    ∧ (∀ j, (faBatchTraj eps xs G t0 d0 (j + 1)).1
        = clampMat (-eps) eps
            ((List.zipWith (List.zipWith (fun d g => d + eps * sgn g))
                (((faBatchTraj eps xs G t0 d0 j).1).take xs.length)
                ((faBatchTraj eps xs G t0 d0 (j + 1)).2))
              ++ ((faBatchTraj eps xs G t0 d0 j).1).drop xs.length)) := by
  refine ⟨fun m => ?_, fun j => ?_, fun j => rfl⟩
  · unfold faBatch
    rw [faBatch_eq_traj]
  · induction j with
    | zero =>
      rw [foldl_range_succ]
      rfl
    | succ n ih =>
      rw [foldl_range_succ, ← ih]
      rfl

theorem foldl_chunks {α β : Type} (g : β → α → β) (bs : ℕ) (hbs : bs ≠ 0) :
    ∀ (l : List α) (b : β),
      (chunks bs l).foldl (fun acc ch => ch.foldl g acc) b = l.foldl g b
  | [], _ => by
    rw [chunks]
    rfl
  | x :: xs, b => by
    rw [chunks, dif_neg hbs, List.foldl_cons,
      foldl_chunks g bs hbs ((x :: xs).drop bs) (((x :: xs).take bs).foldl g b),
      ← List.foldl_append, List.take_append_drop]
termination_by l => l.length
decreasing_by
  simp only [List.length_drop, List.length_cons]
  omega

theorem sample_under_noise_eq_foldl (k : ℕ) (classify : Vec → Fin k) (x : Vec)
    (noises : List Vec) (bs : ℕ) (hbs : bs ≠ 0) :
    sample_under_noise k classify x noises bs
      = noises.foldl (fun cs nz => inc cs (classify (List.zipWith (· + ·) x nz)).val)
          (List.replicate k 0) := by
  unfold sample_under_noise
  simp only [List.foldl_map]
  exact foldl_chunks _ bs hbs noises _

theorem inc_length (cs : List ℕ) (p : ℕ) : (inc cs p).length = cs.length := by
  simp [inc]

theorem inc_sum : ∀ (cs : List ℕ) (p : ℕ), p < cs.length → (inc cs p).sum = cs.sum + 1
  | c :: t, 0, _ => by
    simp [inc]
    omega
  | c :: t, p + 1, h => by
    have ih := inc_sum t p (by simpa using h)
    simp only [inc, List.getD_cons_succ, List.set_cons_succ, List.sum_cons] at ih ⊢
    omega

theorem counts_fold (k : ℕ) (f : Vec → Fin k) :
    ∀ (l : List Vec) (cs : List ℕ), cs.length = k →
      (l.foldl (fun cs nz => inc cs (f nz).val) cs).sum = cs.sum + l.length
      ∧ (l.foldl (fun cs nz => inc cs (f nz).val) cs).length = k
  | [], cs, hcs => by simpa using hcs
  | nz :: l, cs, hcs => by
    have hlen : (inc cs (f nz).val).length = k := by rw [inc_length]; exact hcs
    have ih := counts_fold k f l (inc cs (f nz).val) hlen
    have hsum : (inc cs (f nz).val).sum = cs.sum + 1 :=
      inc_sum cs (f nz).val (by rw [hcs]; exact (f nz).isLt)
    refine ⟨?_, ih.2⟩
    rw [List.foldl_cons, ih.1, hsum, List.length_cons]
    omega

/-- Claim C3: for every input, every list of noise draws and every
`batch_size ≥ 1`, `_sample_under_noise` returns a vector of (non-negative)
per-class counts of length equal to the class count whose entries sum to
exactly `n`, the number of noise draws - one increment per sampled noisy
prediction - independently of how `n` divides into chunks of `batch_size`. -/
theorem C3_sample_counts (k : ℕ) (classify : Vec → Fin k) (x : Vec) (noises : List Vec)
    (bs : ℕ) (hbs : bs ≠ 0) :
    (sample_under_noise k classify x noises bs).sum = noises.length
    ∧ (sample_under_noise k classify x noises bs).length = k
    ∧ (∀ c ∈ sample_under_noise k classify x noises bs, 0 ≤ c)
    ∧ ∀ bs2 : ℕ, bs2 ≠ 0 →
        sample_under_noise k classify x noises bs2
          = sample_under_noise k classify x noises bs := by
  have hc := counts_fold k (fun nz => classify (List.zipWith (· + ·) x nz)) noises
    (List.replicate k 0) (List.length_replicate k 0)
  rw [sample_under_noise_eq_foldl k classify x noises bs hbs]
  refine ⟨?_, hc.2, fun c _ => Nat.zero_le c, fun bs2 hbs2 => ?_⟩
  · rw [hc.1]
    simp
  · rw [sample_under_noise_eq_foldl k classify x noises bs2 hbs2]

theorem C3_witness :
    (sample_under_noise 2 (fun _ => (0 : Fin 2)) [0] [[1], [2], [3]] 2).sum = 3
    ∧ sample_under_noise 2 (fun _ => (0 : Fin 2)) [0] [[1], [2], [3]] 5
        = sample_under_noise 2 (fun _ => (0 : Fin 2)) [0] [[1], [2], [3]] 2 :=
  ⟨(C3_sample_counts 2 (fun _ => (0 : Fin 2)) [0] [[1], [2], [3]] 2 (by decide)).1,
   (C3_sample_counts 2 (fun _ => (0 : Fin 2)) [0] [[1], [2], [3]] 2 (by decide)).2.2.2
     5 (by decide)⟩

/-- Claim C1: `certify` returns exactly `(ABSTAIN, 0.0)` when the lower
confidence bound `p_a ≤ 1/2`; otherwise it returns the class `c` selected in
the first sampling round together with the radius `sigma * ppf p_a`, which
is strictly positive for `sigma > 0` (because `norm.ppf` is positive above
`1/2`, the property assumed of the abstract `ppf`); hence the returned
radius is `0` exactly when the call abstains. -/
theorem C1_certify_abstain (k : ℕ) (classify : Vec → Fin k) (x : Vec)
    (noise0 noise1 : List Vec) (bs : ℕ) (alpha sigma : ℚ)
    (confintLow : ℕ → ℕ → ℚ → ℚ) (ppf : ℚ → ℚ)
    (hsigma : 0 < sigma) (hppf : ∀ q, 1 / 2 < q → 0 < ppf q) :
    (lowerConfBound confintLow k classify x noise1 bs
        (predictedClass k classify x noise0 bs) alpha ≤ 1 / 2 →
      certify k classify x noise0 noise1 bs alpha sigma confintLow ppf = (ABSTAIN, 0))
    ∧ (1 / 2 < lowerConfBound confintLow k classify x noise1 bs
        (predictedClass k classify x noise0 bs) alpha →
      certify k classify x noise0 noise1 bs alpha sigma confintLow ppf
        = ((predictedClass k classify x noise0 bs : ℤ),
            sigma * ppf (lowerConfBound confintLow k classify x noise1 bs
              (predictedClass k classify x noise0 bs) alpha))
      ∧ 0 < (certify k classify x noise0 noise1 bs alpha sigma confintLow ppf).2)
    ∧ ((certify k classify x noise0 noise1 bs alpha sigma confintLow ppf).2 = 0
        ↔ (certify k classify x noise0 noise1 bs alpha sigma confintLow ppf).1 = ABSTAIN) := by
  by_cases h : lowerConfBound confintLow k classify x noise1 bs
      (predictedClass k classify x noise0 bs) alpha ≤ 1 / 2
  · have hr : certify k classify x noise0 noise1 bs alpha sigma confintLow ppf
        = (ABSTAIN, 0) := by
      show (if lowerConfBound confintLow k classify x noise1 bs
          (predictedClass k classify x noise0 bs) alpha ≤ 1 / 2 then ((ABSTAIN, 0) : ℤ × ℚ)
        else ((predictedClass k classify x noise0 bs : ℤ),
          sigma * ppf (lowerConfBound confintLow k classify x noise1 bs
            (predictedClass k classify x noise0 bs) alpha))) = (ABSTAIN, 0)
      rw [if_pos h]
    refine ⟨fun _ => hr, ?_, ?_⟩
    · intro h2
      exact absurd h2 (not_lt.mpr h)
    · rw [hr]
      constructor
      · intro _
        rfl
      · intro _
        rfl
  · have h2 := not_le.mp h
    have hr : certify k classify x noise0 noise1 bs alpha sigma confintLow ppf
        = ((predictedClass k classify x noise0 bs : ℤ),
            sigma * ppf (lowerConfBound confintLow k classify x noise1 bs
              (predictedClass k classify x noise0 bs) alpha)) := by
      show (if lowerConfBound confintLow k classify x noise1 bs
          (predictedClass k classify x noise0 bs) alpha ≤ 1 / 2 then ((ABSTAIN, 0) : ℤ × ℚ)
        else ((predictedClass k classify x noise0 bs : ℤ),
          sigma * ppf (lowerConfBound confintLow k classify x noise1 bs
            (predictedClass k classify x noise0 bs) alpha)))
        = ((predictedClass k classify x noise0 bs : ℤ),
            sigma * ppf (lowerConfBound confintLow k classify x noise1 bs
              (predictedClass k classify x noise0 bs) alpha))
      rw [if_neg h]
    have hpos : 0 < sigma * ppf (lowerConfBound confintLow k classify x noise1 bs
        (predictedClass k classify x noise0 bs) alpha) :=
      mul_pos hsigma (hppf _ h2)
    refine ⟨fun hle => absurd hle h, fun _ => ⟨hr, by rw [hr]; exact hpos⟩, ?_⟩
    rw [hr]
    constructor
    · intro hz
      exact absurd hz.symm (ne_of_lt hpos)
    · intro hc
      have hnn : (0 : ℤ) ≤ (predictedClass k classify x noise0 bs : ℤ) :=
        Int.natCast_nonneg _
      rw [show ((predictedClass k classify x noise0 bs : ℤ), sigma * ppf
          (lowerConfBound confintLow k classify x noise1 bs
            (predictedClass k classify x noise0 bs) alpha)).1
          = (predictedClass k classify x noise0 bs : ℤ) from rfl, ABSTAIN] at hc
      omega

theorem C1_witness :
    0 < (certify 1 (fun _ => (0 : Fin 1)) [] [] [] 1 0 1
        (fun _ _ _ => 3 / 4) (fun q => q - 1 / 2)).2 :=
  ((C1_certify_abstain 1 (fun _ => (0 : Fin 1)) [] [] [] 1 0 1
      (fun _ _ _ => 3 / 4) (fun q => q - 1 / 2) (by norm_num)
      (fun q hq => by linarith)).2.1
    (by norm_num [lowerConfBound])).2

/-- Claim C7: `certify` computes `p_a` from the second, independent sampling
round (`noise1`): the lower bound is the abstract Clopper-Pearson routine
(`method='beta'`, lower endpoint) applied to that round's vote count for the
selected class `c`, the second-round sample size `n`, and the total error
`2 * alpha`; and the whole result depends on the first round (`noise0`) only
through the selected class `c`. -/
theorem C7_second_round (k : ℕ) (classify : Vec → Fin k) (x : Vec)
    (noise0 noise0' noise1 : List Vec) (bs : ℕ) (alpha sigma : ℚ)
    (confintLow : ℕ → ℕ → ℚ → ℚ) (ppf : ℚ → ℚ)
    (h : predictedClass k classify x noise0 bs = predictedClass k classify x noise0' bs) :
    lowerConfBound confintLow k classify x noise1 bs
        (predictedClass k classify x noise0 bs) alpha
      = confintLow ((sample_under_noise k classify x noise1 bs).getD
          (predictedClass k classify x noise0 bs) 0) noise1.length (2 * alpha)
    ∧ certify k classify x noise0 noise1 bs alpha sigma confintLow ppf
        = certify k classify x noise0' noise1 bs alpha sigma confintLow ppf := by
  refine ⟨rfl, ?_⟩
  unfold certify
  rw [h]

theorem C7_witness :
    certify 1 (fun _ => (0 : Fin 1)) [0] [[1]] [] 1 0 1 (fun _ _ _ => 3 / 4) (fun q => q)
      = certify 1 (fun _ => (0 : Fin 1)) [0] [[2]] [] 1 0 1 (fun _ _ _ => 3 / 4)
          (fun q => q) :=
  (C7_second_round 1 (fun _ => (0 : Fin 1)) [0] [[1]] [[2]] [] 1 0 1
    (fun _ _ _ => 3 / 4) (fun q => q) (by
      unfold predictedClass
      rw [sample_under_noise_eq_foldl 1 _ _ _ 1 (by decide),
        sample_under_noise_eq_foldl 1 _ _ _ 1 (by decide)]
      decide)).2

theorem within01_clampTrig (t : Trigger) : within01 (clampTrig t) := by
  intro v hv
  rcases List.mem_map.mp hv with ⟨u, _, rfl⟩
  exact clamp_mem 0 1 u (by norm_num)

theorem within01Mat_clampMask (m : Mask) : within01Mat (clampMask m) := by
  intro r hr
  rcases List.mem_map.mp hr with ⟨row, _, rfl⟩
  intro v hv
  rcases List.mem_map.mp hv with ⟨u, _, rfl⟩
  exact clamp_mem 0 1 u (by norm_num)

/-- Claim C6: in `find_candidate_backdoor`, after the per-batch update of
mask and trigger (the Adam optimizer step followed by the manual
sign-gradient step and the clamps on lines 222 and 225), every entry of
`mask` and every entry of `trigger` lies in `[0, 1]`: after any positive
number of inner-loop passes both live variables are outputs of
`torch.clamp(·, 0, 1)`. -/
theorem C6_mask_trigger_in_unit (ss : ℚ)
    (G : ℕ → Mask → Trigger → (ℕ → ℕ → ℚ) × (ℕ → ℚ))
    (adamM : ℕ → Mask → (ℕ → ℕ → ℚ) → Mask)
    (adamT : ℕ → Trigger → (ℕ → ℚ) → Trigger)
    (s0 : NCState) (T : ℕ) (hT : 1 ≤ T) :
    within01Mat ((ncRun ss G adamM adamT T s0).mask)
    ∧ within01 ((ncRun ss G adamM adamT T s0).trigger) := by
  obtain ⟨t, rfl⟩ : ∃ t, T = t + 1 := ⟨T - 1, by omega⟩
  show within01Mat ((ncStep ss G adamM adamT t (ncRun ss G adamM adamT t s0)).mask)
    ∧ within01 ((ncStep ss G adamM adamT t (ncRun ss G adamM adamT t s0)).trigger)
  unfold ncStep
  by_cases ht : t = 0 <;>
    simp only [ht, if_true, if_false, reduceIte] <;>
    exact ⟨within01Mat_clampMask _, within01_clampTrig _⟩

theorem C6_witness :
    within01Mat ((ncRun 1 (fun _ _ _ => (fun _ _ => 0, fun _ => 0)) (fun _ m _ => m)
      (fun _ t _ => t) 1 ⟨[[2]], [3], [[2]], [3]⟩).mask)
    ∧ within01 ((ncRun 1 (fun _ _ _ => (fun _ _ => 0, fun _ => 0)) (fun _ m _ => m)
      (fun _ t _ => t) 1 ⟨[[2]], [3], [[2]], [3]⟩).trigger) :=
  C6_mask_trigger_in_unit 1 (fun _ _ _ => (fun _ _ => 0, fun _ => 0)) (fun _ m _ => m)
    (fun _ t _ => t) ⟨[[2]], [3], [[2]], [3]⟩ 1 (by omega)

/-- Claim C8: with `niters = 0`, or with a data loader yielding no batches,
`find_candidate_backdoor` returns the random initial trigger unchanged and
the random initial 2-D mask unchanged except for the final channel-repeat
`mask.repeat(3, 1, 1)`. -/
theorem C8_no_iterations (ss : ℚ) (niters nbatches : ℕ)
    (G : ℕ → Mask → Trigger → (ℕ → ℕ → ℚ) × (ℕ → ℚ))
    (adamM : ℕ → Mask → (ℕ → ℕ → ℚ) → Mask)
    (adamT : ℕ → Trigger → (ℕ → ℚ) → Trigger)
    (m0 : Mask) (t0 : Trigger) (h : niters = 0 ∨ nbatches = 0) :
    find_candidate_backdoor ss niters nbatches G adamM adamT m0 t0
      = (List.replicate 3 m0, t0) := by
  have hz : niters * nbatches = 0 := by
    rcases h with h | h <;> simp [h]
  unfold find_candidate_backdoor
  rw [hz]
  rfl

theorem C8_witness :
    find_candidate_backdoor 1 0 5 (fun _ _ _ => (fun _ _ => 0, fun _ => 0))
        (fun _ m _ => m) (fun _ t _ => t) [[1/2]] [1/3]
      = ([[[1/2]], [[1/2]], [[1/2]]], [1/3]) :=
  C8_no_iterations 1 0 5 (fun _ _ _ => (fun _ _ => 0, fun _ => 0))
    (fun _ m _ => m) (fun _ t _ => t) [[1/2]] [1/3] (Or.inl rfl)

theorem ncRun_vars_eq (ss : ℚ) (G : ℕ → Mask → Trigger → (ℕ → ℕ → ℚ) × (ℕ → ℚ))
    (adamM : ℕ → Mask → (ℕ → ℕ → ℚ) → Mask)
    (adamT : ℕ → Trigger → (ℕ → ℚ) → Trigger) (s0 : NCState) :
    ∀ T, (ncRun ss G adamM adamT T s0).mask
          = (ncRunNoStaleAdam ss G adamM adamT T s0).mask
      ∧ (ncRun ss G adamM adamT T s0).trigger
          = (ncRunNoStaleAdam ss G adamM adamT T s0).trigger
  | 0 => ⟨rfl, rfl⟩
  | T + 1 => by
    have ih := ncRun_vars_eq ss G adamM adamT s0 T
    show (ncStep ss G adamM adamT T (ncRun ss G adamM adamT T s0)).mask
        = (ncStepNoStaleAdam ss G adamM adamT T
            (ncRunNoStaleAdam ss G adamM adamT T s0)).mask
      ∧ (ncStep ss G adamM adamT T (ncRun ss G adamM adamT T s0)).trigger
        = (ncStepNoStaleAdam ss G adamM adamT T
            (ncRunNoStaleAdam ss G adamM adamT T s0)).trigger
    by_cases hT : T = 0
    · subst hT
      exact ⟨rfl, rfl⟩
    · unfold ncStep ncStepNoStaleAdam
      simp only [hT, reduceIte, if_false]
      rw [ih.1, ih.2]
      exact ⟨rfl, rfl⟩

/-- Claim C9: after the first inner-loop update the clamps on lines 222/225
rebind `mask` and `trigger` to fresh tensors that are not the tensors
registered with the Adam optimizer, so from the second update on
`optimizer.step()` moves only the stale initial tensors (with zeroed
gradients) and never the live variables; consequently the returned
mask/trigger pair is identical to that of the variant of the algorithm in
which the Adam optimizer step is omitted on all iterations after the first -
for every gradient oracle and every Adam behaviour. -/
theorem C9_stale_adam_equiv (ss : ℚ) (niters nbatches : ℕ)
    (G : ℕ → Mask → Trigger → (ℕ → ℕ → ℚ) × (ℕ → ℚ))
    (adamM : ℕ → Mask → (ℕ → ℕ → ℚ) → Mask)
    (adamT : ℕ → Trigger → (ℕ → ℚ) → Trigger)
    (m0 : Mask) (t0 : Trigger) :
    find_candidate_backdoor ss niters nbatches G adamM adamT m0 t0
      = find_candidate_backdoor_no_stale_adam ss niters nbatches G adamM adamT m0 t0 := by
  have h := ncRun_vars_eq ss G adamM adamT ⟨m0, t0, m0, t0⟩ (niters * nbatches)
  show (List.replicate 3
        (ncRun ss G adamM adamT (niters * nbatches) ⟨m0, t0, m0, t0⟩).mask,
      (ncRun ss G adamM adamT (niters * nbatches) ⟨m0, t0, m0, t0⟩).trigger)
    = (List.replicate 3
        (ncRunNoStaleAdam ss G adamM adamT (niters * nbatches) ⟨m0, t0, m0, t0⟩).mask,
      (ncRunNoStaleAdam ss G adamM adamT (niters * nbatches) ⟨m0, t0, m0, t0⟩).trigger)
  rw [h.1, h.2]

theorem mapWithIdx_length (f : ℕ → α → β) (l : List α) :
    (mapWithIdx f l).length = l.length := by
  simp [mapWithIdx]

theorem mem_zipWith_pair {α β γ : Type} {f : α → β → γ} :
    ∀ {as : List α} {bs : List β} {c : γ}, c ∈ List.zipWith f as bs →
      ∃ a b, a ∈ as ∧ b ∈ bs ∧ c = f a b
  | a :: as, b :: bs, c, h => by
    rcases List.mem_cons.mp h with h | h
    · exact ⟨a, b, List.mem_cons_self a as, List.mem_cons_self b bs, h⟩
    · rcases mem_zipWith_pair h with ⟨a', b', ha, hb, rfl⟩
      exact ⟨a', b', List.mem_cons_of_mem a ha, List.mem_cons_of_mem b hb, rfl⟩
  | [], _, c, h => by simp at h
  | _ :: _, [], c, h => by simp at h

theorem mem_mapWithIdx {α β : Type} {f : ℕ → α → β} {l : List α} {c : β}
    (h : c ∈ mapWithIdx f l) : ∃ i a, a ∈ l ∧ c = f i a := by
  rcases mem_zipWith_pair h with ⟨i, a, _, ha, rfl⟩
  exact ⟨i, a, ha, rfl⟩

theorem maskUpdate_shape (ss : ℚ) (g : ℕ → ℕ → ℚ) (h w : ℕ) (m : Mask)
    (hm : maskIsShape h w m) : maskIsShape h w (maskUpdate ss m g) := by
  refine ⟨by rw [maskUpdate, mapWithIdx_length]; exact hm.1, ?_⟩
  intro r hr
  rcases mem_mapWithIdx hr with ⟨i, row, hrow, rfl⟩
  rw [mapWithIdx_length]
  exact hm.2 row hrow

theorem clampMask_shape (h w : ℕ) (m : Mask) (hm : maskIsShape h w m) :
    maskIsShape h w (clampMask m) := by
  refine ⟨by rw [clampMask, List.length_map]; exact hm.1, ?_⟩
  intro r hr
  rcases List.mem_map.mp hr with ⟨row, hrow, rfl⟩
  rw [List.length_map]
  exact hm.2 row hrow

theorem ncRun_mask_shape (ss : ℚ) (G : ℕ → Mask → Trigger → (ℕ → ℕ → ℚ) × (ℕ → ℚ))
    (adamM : ℕ → Mask → (ℕ → ℕ → ℚ) → Mask)
    (adamT : ℕ → Trigger → (ℕ → ℚ) → Trigger) (h w : ℕ)
    (hAdam : ∀ t m g, maskIsShape h w m → maskIsShape h w (adamM t m g))
    (s0 : NCState) (hs0 : maskIsShape h w s0.mask) :
    ∀ T, maskIsShape h w ((ncRun ss G adamM adamT T s0).mask)
  | 0 => hs0
  | T + 1 => by
    have ih := ncRun_mask_shape ss G adamM adamT h w hAdam s0 hs0 T
    show maskIsShape h w ((ncStep ss G adamM adamT T (ncRun ss G adamM adamT T s0)).mask)
    unfold ncStep
    by_cases hT : T = 0
    · subst hT
      simp only [reduceIte]
      exact clampMask_shape h w _ (maskUpdate_shape _ _ h w _ (hAdam 0 _ _ ih))
    · simp only [hT, reduceIte, if_false]
      exact clampMask_shape h w _ (maskUpdate_shape _ _ h w _ ih)

/-- Claim C10: the mask returned by `find_candidate_backdoor` is the final
2-D `(dim[2], dim[3])` mask repeated across exactly 3 channels
(`mask.repeat(3, 1, 1)` on line 227, with the hardcoded 3) - regardless of
the configured channel count - even though during optimization the mask is
broadcast to the actual channel count `x.shape[1]` of each batch
(`mask.repeat(x.shape[1], 1, 1)` on line 206, embedded as `expand_mask`). -/
theorem C10_mask_three_channels (ss : ℚ) (niters nbatches : ℕ)
    (G : ℕ → Mask → Trigger → (ℕ → ℕ → ℚ) × (ℕ → ℚ))
    (adamM : ℕ → Mask → (ℕ → ℕ → ℚ) → Mask)
    (adamT : ℕ → Trigger → (ℕ → ℚ) → Trigger)
    (m0 : Mask) (t0 : Trigger) (h w : ℕ) (hm0 : maskIsShape h w m0)
    (hAdam : ∀ t m g, maskIsShape h w m → maskIsShape h w (adamM t m g)) :
    (find_candidate_backdoor ss niters nbatches G adamM adamT m0 t0).1
      = List.replicate 3
          ((ncRun ss G adamM adamT (niters * nbatches) ⟨m0, t0, m0, t0⟩).mask)
    ∧ (find_candidate_backdoor ss niters nbatches G adamM adamT m0 t0).1.length = 3
    ∧ maskIsShape h w ((ncRun ss G adamM adamT (niters * nbatches) ⟨m0, t0, m0, t0⟩).mask)
    ∧ ∀ (chans : ℕ) (m : Mask), (expand_mask chans m).length = chans :=
  ⟨rfl, List.length_replicate 3 _,
   ncRun_mask_shape ss G adamM adamT h w hAdam ⟨m0, t0, m0, t0⟩ hm0 (niters * nbatches),
   fun chans m => List.length_replicate chans m⟩

theorem C10_witness :
    (find_candidate_backdoor 1 1 1 (fun _ _ _ => (fun _ _ => 0, fun _ => 0))
      (fun _ m _ => m) (fun _ t _ => t) [[1/2]] [1/3]).1.length = 3 :=
  (C10_mask_three_channels 1 1 1 (fun _ _ _ => (fun _ _ => 0, fun _ => 0))
    (fun _ m _ => m) (fun _ t _ => t) [[1/2]] [1/3] 1 1 (by simp [maskIsShape])
    (fun _ _ _ hh => hh)).2.1

end Defenses
